import Mathlib

/-!
# Verification of the pdfcloudexplorer edit/compose engine

Shallow embedding of the core of the repository: the rotation-aware
coordinate transforms, the rich-text run flattening, the PDF compositor
(`savePdfWithAnnotations`), the merge operation, the workspace history
engine, and the base64 encoding utilities.  JavaScript numbers are
modelled as rationals (the specification speaks of equality up to
floating tolerance), JavaScript strings as lists of characters, and
fallible external calls (image embedding, PDF parsing, `atob`) as
`Option`-valued oracles.
-/

namespace PdfCloudExplorer

/-- A rectangle `(x, y, w, h)`, as handled by the coordinate transforms of
the viewer component. -/
structure Rect where
  x : ℚ
  y : ℚ
  w : ℚ
  h : ℚ
deriving DecidableEq, Repr

/-- `transformRect` from the viewer component: canonical (unrotated,
normalized) space to display space for a rotation `θ`.  The JavaScript
expression `h || 0` is modelled as `if h = 0 then 0 else h` and
`h || 0.05` as `if h = 0 then 1/20 else h` (on rationals `0` is the only
falsy number).  `rotation % 360` uses JavaScript truncating remainder,
i.e. `Int.tmod`. -/
def transformRect (x y w h : ℚ) (rotation : ℤ) : Rect :=
  let r := rotation.tmod 360
  if r = 90 then
    ⟨1 - y - (if h = 0 then 0 else h), x, if h = 0 then 1/20 else h, w⟩
  else if r = 180 then
    ⟨1 - x - w, 1 - y - (if h = 0 then 0 else h), w, if h = 0 then 0 else h⟩
  else if r = 270 then
    ⟨y, 1 - x - w, if h = 0 then 1/20 else h, w⟩
  else
    ⟨x, y, w, if h = 0 then 0 else h⟩

/-- `inverseTransformRect` from the viewer component: display space back to
canonical space for the same rotation `θ`. -/
def inverseTransformRect (x y w h : ℚ) (rotation : ℤ) : Rect :=
  let r := rotation.tmod 360
  if r = 90 then
    ⟨y, 1 - x - w, h, w⟩
  else if r = 180 then
    ⟨1 - x - w, 1 - y - h, w, h⟩
  else if r = 270 then
    ⟨1 - y - h, x, h, w⟩
  else
    ⟨x, y, w, h⟩

/-- Round trip of a rect through display space and back, for a given
rotation: `toCanonical (toDisplay r θ) θ`. -/
def roundTripRect (r : Rect) (rotation : ℤ) : Rect :=
  let d := transformRect r.x r.y r.w r.h rotation
  inverseTransformRect d.x d.y d.w d.h rotation

/-- `transformRect` at rotation `0` is the identity (the `h || 0` default
is transparent there). -/
theorem transformRect_zero (x y w h : ℚ) : transformRect x y w h 0 = ⟨x, y, w, h⟩ := by
  have t0 : (0 : ℤ).tmod 360 = 0 := by decide
  by_cases h0 : h = 0 <;>
    norm_num [transformRect, t0, h0]

/-- `inverseTransformRect` at rotation `0` is the identity. -/
theorem inverseTransformRect_zero (x y w h : ℚ) :
    inverseTransformRect x y w h 0 = ⟨x, y, w, h⟩ := by
  have t0 : (0 : ℤ).tmod 360 = 0 := by decide
  norm_num [inverseTransformRect, t0]

/-- C1, counterexample: the inverse law fails as stated.  For the rect
`(0, 0, 1, 0)` at rotation 90 the `h || 0.05` default kicks in and the
round trip returns `(0, -1/20, 1, 1/20)`, not the original rect. -/
theorem C1_counterexample : roundTripRect ⟨0, 0, 1, 0⟩ 90 ≠ ⟨0, 0, 1, 0⟩ := by
  have h90 : (90 : ℤ).tmod 360 = 90 := by decide
  norm_num [roundTripRect, transformRect, inverseTransformRect, h90]

/-- C1 (amended): for every rect `r` and rotation `θ ∈ {0, 90, 180, 270}`,
`toCanonical (toDisplay r θ) θ = r` holds exactly, except when `r.h = 0`
and `θ ∈ {90, 270}` where the `h || 0.05` default height substitution
breaks the round trip; `θ = 0` is the identity for both functions for
every rect. -/
theorem C1_transform_roundTrip (r : Rect) (θ : ℤ)
    (hθ : θ = 0 ∨ θ = 90 ∨ θ = 180 ∨ θ = 270)
    (hh : r.h ≠ 0 ∨ θ = 0 ∨ θ = 180) :
    roundTripRect r θ = r ∧ transformRect r.x r.y r.w r.h 0 = r ∧
      inverseTransformRect r.x r.y r.w r.h 0 = r := by
  obtain ⟨x, y, w, h⟩ := r
  refine ⟨?_, transformRect_zero x y w h, inverseTransformRect_zero x y w h⟩
  have t0 : (0 : ℤ).tmod 360 = 0 := by decide
  have t90 : (90 : ℤ).tmod 360 = 90 := by decide
  have t180 : (180 : ℤ).tmod 360 = 180 := by decide
  have t270 : (270 : ℤ).tmod 360 = 270 := by decide
  rcases hθ with rfl | rfl | rfl | rfl
  · by_cases h0 : h = 0 <;>
      norm_num [roundTripRect, transformRect, inverseTransformRect, t0, h0]
  · have hne : h ≠ 0 := by
      rcases hh with h1 | h1 | h1
      · exact h1
      · exact absurd h1 (by decide)
      · exact absurd h1 (by decide)
    norm_num [roundTripRect, transformRect, inverseTransformRect, t90, hne] <;> ring
  · by_cases h0 : h = 0
    · norm_num [roundTripRect, transformRect, inverseTransformRect, t180, h0]
      ring
    · norm_num [roundTripRect, transformRect, inverseTransformRect, t180, h0]
      ring_nf
      try exact ⟨trivial, trivial⟩
  · have hne : h ≠ 0 := by
      rcases hh with h1 | h1 | h1
      · exact h1
      · exact absurd h1 (by decide)
      · exact absurd h1 (by decide)
    norm_num [roundTripRect, transformRect, inverseTransformRect, t270, hne] <;> ring

/-- C1 witness: the amended round-trip law applied at the concrete rect
`(1/2, 1/3, 1/4, 1/5)` and rotation 90. -/
theorem C1_transform_roundTrip_witness :
    (((90 : ℤ) = 0 ∨ (90 : ℤ) = 90 ∨ (90 : ℤ) = 180 ∨ (90 : ℤ) = 270) ∧
      ((Rect.mk (1/2) (1/3) (1/4) (1/5)).h ≠ 0 ∨ (90 : ℤ) = 0 ∨ (90 : ℤ) = 180)) ∧
    (roundTripRect ⟨1/2, 1/3, 1/4, 1/5⟩ 90 = ⟨1/2, 1/3, 1/4, 1/5⟩ ∧
      transformRect (1/2) (1/3) (1/4) (1/5) 0 = ⟨1/2, 1/3, 1/4, 1/5⟩ ∧
      inverseTransformRect (1/2) (1/3) (1/4) (1/5) 0 = ⟨1/2, 1/3, 1/4, 1/5⟩) :=
  ⟨⟨by norm_num, by norm_num⟩,
    C1_transform_roundTrip ⟨1/2, 1/3, 1/4, 1/5⟩ 90 (by norm_num) (by norm_num)⟩

/-! ## History manager

The workspace history of the application component: a list of snapshots,
a cursor (`historyIndex`, which can be `-1`), and the live workspace
state.  `W` abstracts the workspace value (file tree plus the three
annotation maps); `getCurrentWorkspaceState` / `restoreWorkspaceState`
are value-preserving (deep copies with binary payloads re-attached by
reference from the id-to-bytes table), so capture stores the live value
and restore assigns it. -/

/-- The history-related state of the workspace component.  The invariant
maintained by all reachable states is `-1 ≤ historyIndex < history.length`
after at least one capture, and `historyIndex ≤ history.length - 1`
always. -/
structure HistoryState (W : Type*) where
  history : List W
  historyIndex : ℤ
  live : W
deriving DecidableEq, Repr

/-- `pushHistory`: trim the log to `historyIndex + 1` entries (dropping
stale redo entries; the whole log when the cursor is `-1`), append a
snapshot of the live state, and advance the cursor. -/
def pushHistory {W : Type*} (s : HistoryState W) : HistoryState W :=
  { history :=
      (if 0 ≤ s.historyIndex then s.history.take (s.historyIndex.toNat + 1) else []) ++
        [s.live],
    historyIndex := s.historyIndex + 1,
    live := s.live }

/-- `handleUndo`: no-op unless `canUndo` (`0 ≤ historyIndex`).  If the
cursor points at the last entry, first push a snapshot of the live state
(so a redo is possible), then restore the snapshot at the cursor and
decrement the cursor.  The `getD` default is never consulted on
reachable states (`historyIndex < history.length`). -/
def handleUndo {W : Type*} (s : HistoryState W) : HistoryState W :=
  if 0 ≤ s.historyIndex then
    { history :=
        if s.historyIndex = (s.history.length : ℤ) - 1 then s.history ++ [s.live]
        else s.history,
      historyIndex := s.historyIndex - 1,
      live := s.history.getD s.historyIndex.toNat s.live }
  else s

/-- `handleRedo`: no-op if `historyIndex + 1` is not a valid log index;
otherwise restore the snapshot at `historyIndex + 1` and increment the
cursor. -/
def handleRedo {W : Type*} (s : HistoryState W) : HistoryState W :=
  let newIndex := s.historyIndex + 1
  if (s.history.length : ℤ) ≤ newIndex then s
  else
    { history := s.history,
      historyIndex := newIndex,
      live := s.history.getD newIndex.toNat s.live }

/-- One editing round: `pushHistory` (capture, fired synchronously before
the mutation) followed by the mutating action, modelled as replacing the
live workspace value by `w`. -/
def captureThenEdit {W : Type*} (s : HistoryState W) (w : W) : HistoryState W :=
  { pushHistory s with live := w }

/-- A sequence of editing rounds, one capture before each mutation. -/
def applyEdits {W : Type*} (s : HistoryState W) (ws : List W) : HistoryState W :=
  ws.foldl captureThenEdit s

/-- A capture from a state whose cursor sits at the log tail appends the
live value to the log; the subsequent mutation replaces the live value. -/
theorem captureThenEdit_tail {W : Type*} (H : List W) (L w : W) :
    captureThenEdit (⟨H, (H.length : ℤ) - 1, L⟩ : HistoryState W) w =
      ⟨H ++ [L], ((H ++ [L]).length : ℤ) - 1, w⟩ := by
  simp only [captureThenEdit, pushHistory, HistoryState.mk.injEq]
  refine ⟨?_, by simp, trivial⟩
  rcases H with _ | ⟨a, t⟩
  · simp
  · rw [if_pos (by simp)]
    have h1 : ((((a :: t).length : ℤ) - 1).toNat + 1) = (a :: t).length := by
      simp only [List.length_cons]
      omega
    rw [h1, List.take_length]

/-- Editing from a state whose cursor sits at the log tail appends the
pre-edit live values in order and keeps the cursor at the tail. -/
theorem applyEdits_tail {W : Type*} :
    ∀ (ws : List W) (H : List W) (L : W),
      applyEdits ⟨H, (H.length : ℤ) - 1, L⟩ ws =
        ⟨H ++ (L :: ws).dropLast, (H.length : ℤ) + ws.length - 1, ws.getLastD L⟩
  | [], H, L => by simp [applyEdits]
  | w :: rest, H, L => by
    have hfold : applyEdits (⟨H, (H.length : ℤ) - 1, L⟩ : HistoryState W) (w :: rest) =
        applyEdits ⟨H ++ [L], ((H ++ [L]).length : ℤ) - 1, w⟩ rest := by
      simp only [applyEdits, List.foldl_cons, captureThenEdit_tail]
    rw [hfold, applyEdits_tail rest (H ++ [L]) w]
    simp only [HistoryState.mk.injEq]
    refine ⟨?_, ?_, ?_⟩
    · rw [List.dropLast_cons₂, List.append_assoc, List.singleton_append]
    · simp only [List.length_append, List.length_cons, List.length_nil]
      omega
    · rw [List.getLastD_cons]

/-- Reading a snapshot list at the index right after a prefix returns the
element there, whatever the default. -/
theorem getD_append_cons {W : Type*} :
    ∀ (H t : List W) (L d : W), (H ++ L :: t).getD H.length d = L
  | [], _, _, _ => rfl
  | a :: H, t, L, d => by
    simp only [List.cons_append, List.length_cons, List.getD_cons_succ]
    exact getD_append_cons H t L d

/-- `getD_append_cons`, keyed on an index hypothesis. -/
theorem getD_eq_of_idx {W : Type*} (T t : List W) (L d : W) (n : ℕ)
    (h : n = T.length) : (T ++ L :: t).getD n d = L :=
  h ▸ getD_append_cons T t L d

/-- `handleUndo` from a state whose cursor sits at the log tail: pushes a
snapshot of the live state, restores the entry at the cursor, decrements. -/
theorem handleUndo_eq_of_tail {W : Type*} (K : List W) (idx : ℤ) (v : W)
    (htail : idx = (K.length : ℤ) - 1) (h0 : 0 ≤ idx) :
    handleUndo ⟨K, idx, v⟩ = ⟨K ++ [v], idx - 1, K.getD idx.toNat v⟩ := by
  simp only [handleUndo]
  rw [if_pos h0, if_pos htail]

/-- `handleUndo` from a state whose cursor sits strictly below the log
tail: restores the entry at the cursor and decrements, no push. -/
theorem handleUndo_eq_of_mid {W : Type*} (K : List W) (idx : ℤ) (v : W)
    (htail : idx ≠ (K.length : ℤ) - 1) (h0 : 0 ≤ idx) :
    handleUndo ⟨K, idx, v⟩ = ⟨K, idx - 1, K.getD idx.toNat v⟩ := by
  simp only [handleUndo]
  rw [if_pos h0, if_neg htail]

/-- Undoing as many times as there were editing rounds (started from a
tail state) restores the pre-edit live value; the log keeps every
snapshot plus the synthesized snapshot of the final live value. -/
theorem undoAll_applyEdits {W : Type*} :
    ∀ (ws : List W) (H : List W) (L : W), ws ≠ [] →
      handleUndo^[ws.length] (applyEdits ⟨H, (H.length : ℤ) - 1, L⟩ ws) =
        ⟨H ++ L :: ws, (H.length : ℤ) - 1, L⟩
  | [], _, _, h => absurd rfl h
  | [w], H, L, _ => by
    rw [applyEdits_tail]
    rw [show ((L :: [w]).dropLast : List W) = [L] from rfl]
    rw [show (([w] : List W).getLastD L) = w from rfl]
    rw [show (([w] : List W).length) = 1 from rfl]
    rw [show ((H.length : ℤ) + (1 : ℕ) - 1) = (((H ++ [L]).length : ℤ) - 1) from by
      simp]
    rw [Function.iterate_one]
    rw [handleUndo_eq_of_tail (H ++ [L]) _ w rfl (by simp)]
    simp only [HistoryState.mk.injEq]
    refine ⟨by simp, by simp, ?_⟩
    apply getD_eq_of_idx
    simp
  | w :: r :: rest, H, L, _ => by
    have hfold : applyEdits (⟨H, (H.length : ℤ) - 1, L⟩ : HistoryState W) (w :: r :: rest) =
        applyEdits ⟨H ++ [L], ((H ++ [L]).length : ℤ) - 1, w⟩ (r :: rest) := by
      simp only [applyEdits, List.foldl_cons, captureThenEdit_tail]
    rw [show ((w :: r :: rest).length) = (r :: rest).length + 1 from rfl,
      Function.iterate_succ_apply', hfold,
      undoAll_applyEdits (r :: rest) (H ++ [L]) w (by simp)]
    rw [handleUndo_eq_of_mid ((H ++ [L]) ++ w :: r :: rest) _ w
      (by simp only [List.length_append, List.length_cons, List.length_nil]; push_cast; omega)
      (by simp only [List.length_append, List.length_cons, List.length_nil]; push_cast; omega)]
    simp only [HistoryState.mk.injEq]
    refine ⟨by simp, ?_, ?_⟩
    · simp only [List.length_append, List.length_cons, List.length_nil]
      push_cast
      ring
    · rw [List.append_assoc, List.singleton_append]
      apply getD_eq_of_idx
      simp only [List.length_append, List.length_cons, List.length_nil]
      omega

/-- C3: after `k ≥ 1` capture calls, each immediately before a mutating
action, followed by `k` undo calls, the live workspace state equals the
state that held prior to the first capture.  Valid for every reachable
starting state (`-1 ≤ historyIndex < history.length`). -/
theorem C3_captures_then_undos (W : Type*) (s : HistoryState W) (ws : List W)
    (hge : -1 ≤ s.historyIndex) (hlt : s.historyIndex < (s.history.length : ℤ))
    (hne : ws ≠ []) :
    (handleUndo^[ws.length] (applyEdits s ws)).live = s.live := by
  obtain ⟨H, i, L⟩ := s
  simp only at hge hlt ⊢
  obtain ⟨w, rest, rfl⟩ : ∃ w rest, ws = w :: rest := by
    cases ws with
    | nil => exact absurd rfl hne
    | cons a t => exact ⟨a, t, rfl⟩
  have hsplit : applyEdits (⟨H, i, L⟩ : HistoryState W) (w :: rest) =
      applyEdits (captureThenEdit ⟨H, i, L⟩ w) rest := rfl
  have hstep : captureThenEdit (⟨H, i, L⟩ : HistoryState W) w =
      ⟨(if 0 ≤ i then H.take (i.toNat + 1) else []) ++ [L], i + 1, w⟩ := rfl
  rw [hsplit, hstep]
  set T : List W := if 0 ≤ i then H.take (i.toNat + 1) else [] with hT
  have hTlen : (T.length : ℤ) = i + 1 := by
    rw [hT]
    split_ifs with h0
    · rw [List.length_take]
      omega
    · simp only [List.length_nil]
      omega
  rw [show (i + 1 : ℤ) = (((T ++ [L]).length : ℤ) - 1) from by
    simp only [List.length_append, List.length_cons, List.length_nil]
    push_cast
    omega]
  cases rest with
  | nil =>
    rw [show (applyEdits (⟨T ++ [L], ((T ++ [L]).length : ℤ) - 1, w⟩ : HistoryState W) []) =
        ⟨T ++ [L], ((T ++ [L]).length : ℤ) - 1, w⟩ from rfl]
    rw [show (([w] : List W).length) = 1 from rfl, Function.iterate_one]
    rw [handleUndo_eq_of_tail (T ++ [L]) _ w rfl (by simp)]
    apply getD_eq_of_idx
    simp
  | cons r rest =>
    rw [show ((w :: r :: rest).length) = (r :: rest).length + 1 from rfl,
      Function.iterate_succ_apply',
      undoAll_applyEdits (r :: rest) (T ++ [L]) w (by simp)]
    rw [handleUndo_eq_of_mid ((T ++ [L]) ++ w :: r :: rest) _ w
      (by simp only [List.length_append, List.length_cons, List.length_nil]; push_cast; omega)
      (by simp only [List.length_append, List.length_cons, List.length_nil]; push_cast; omega)]
    rw [show (((T ++ [L]) ++ w :: r :: rest : List W)) = T ++ L :: (w :: r :: rest) from by
      rw [List.append_assoc, List.singleton_append]]
    apply getD_eq_of_idx
    simp only [List.length_append, List.length_cons, List.length_nil]
    omega

/-- C3 witness: two captured edits then two undos on a concrete workspace
restore the original live value `5`. -/
theorem C3_captures_then_undos_witness :
    ((-1 : ℤ) ≤ (HistoryState.mk ([] : List ℕ) (-1) 5).historyIndex ∧
      (HistoryState.mk ([] : List ℕ) (-1) 5).historyIndex <
        ((HistoryState.mk ([] : List ℕ) (-1) 5).history.length : ℤ) ∧
      ([7, 9] : List ℕ) ≠ []) ∧
    (handleUndo^[([7, 9] : List ℕ).length]
        (applyEdits (HistoryState.mk ([] : List ℕ) (-1) 5) [7, 9])).live =
      (HistoryState.mk ([] : List ℕ) (-1) 5).live :=
  ⟨⟨by decide, by decide, by decide⟩,
    C3_captures_then_undos ℕ ⟨[], -1, 5⟩ [7, 9] (by decide) (by decide) (by decide)⟩

/-- Reading below the end of the left part of an appended list. -/
theorem getD_append_left {W : Type*} :
    ∀ (l₁ l₂ : List W) (n : ℕ) (d : W), n < l₁.length →
      (l₁ ++ l₂).getD n d = l₁.getD n d
  | [], _, _, _, h => absurd h (by simp)
  | _ :: _, _, 0, _, _ => rfl
  | _ :: t, l₂, n + 1, d, h => by
    simp only [List.cons_append, List.getD_cons_succ]
    exact getD_append_left t l₂ n d (by simpa using h)

/-- In-range reads ignore the `getD` default. -/
theorem getD_irrel {W : Type*} :
    ∀ (l : List W) (n : ℕ) (d₁ d₂ : W), n < l.length → l.getD n d₁ = l.getD n d₂
  | [], _, _, _, h => absurd h (by simp)
  | _ :: _, 0, _, _, _ => rfl
  | _ :: t, n + 1, d₁, d₂, h => by
    simp only [List.getD_cons_succ]
    exact getD_irrel t n d₁ d₂ (by simpa using h)

/-- `handleRedo` when `historyIndex + 1` is a valid log index: restores
the entry there and increments the cursor. -/
theorem handleRedo_eq_of_valid {W : Type*} (K : List W) (idx : ℤ) (v : W)
    (h : idx + 1 < (K.length : ℤ)) :
    handleRedo ⟨K, idx, v⟩ = ⟨K, idx + 1, K.getD (idx + 1).toNat v⟩ := by
  simp only [handleRedo]
  rw [if_neg (by omega)]

/-- C4, counterexample: the claim fails on the code.  From the workspace
`live = 1` with one captured snapshot `0` (cursor at it), one undo
restores `0` (pushing the synthesized snapshot of `1`); one redo then
restores the snapshot at `cursor + 1`, which is again `0` — not the
pre-undo live state `1`. -/
theorem C4_counterexample :
    (0 : ℤ) ≤ (HistoryState.mk [0] 0 (1 : ℕ)).historyIndex ∧
    (handleRedo (handleUndo (HistoryState.mk [0] 0 (1 : ℕ)))).live ≠
      (HistoryState.mk [0] 0 (1 : ℕ)).live := by
  refine ⟨by decide, by decide⟩

/-- C4 (amended): from any workspace state with at least one captured
snapshot, one `undo()` followed by one `redo()` restores the snapshot the
undo itself restored — the live state is unchanged by the redo; the live
state that held immediately prior to the undo is restored only by a
second `redo()` (possible because the undo pushed a synthesized snapshot
of it) when the cursor was at the log tail. -/
theorem C4_undo_redo (W : Type*) (s : HistoryState W)
    (h0 : 0 ≤ s.historyIndex) (hlt : s.historyIndex < (s.history.length : ℤ)) :
    (handleRedo (handleUndo s)).live = (handleUndo s).live ∧
    (s.historyIndex = (s.history.length : ℤ) - 1 →
      (handleRedo (handleRedo (handleUndo s))).live = s.live) := by
  obtain ⟨H, i, L⟩ := s
  simp only at h0 hlt ⊢
  have hiNat : i.toNat < H.length := by omega
  by_cases htail : i = (H.length : ℤ) - 1
  · rw [handleUndo_eq_of_tail H i L htail h0]
    rw [handleRedo_eq_of_valid (H ++ [L]) (i - 1) (H.getD i.toNat L) (by simp; omega)]
    have ht1 : (i - 1 + 1).toNat = i.toNat := by omega
    constructor
    · simp only [ht1]
      rw [getD_append_left H [L] i.toNat (H.getD i.toNat L) hiNat]
      exact getD_irrel H i.toNat _ L hiNat
    · intro _
      rw [handleRedo_eq_of_valid (H ++ [L]) (i - 1 + 1)
        ((H ++ [L]).getD (i - 1 + 1).toNat (H.getD i.toNat L)) (by simp; omega)]
      simp only
      have ht2 : (i - 1 + 1 + 1).toNat = H.length := by omega
      rw [ht2]
      apply getD_eq_of_idx
      rfl
  · rw [handleUndo_eq_of_mid H i L htail h0]
    rw [handleRedo_eq_of_valid H (i - 1) (H.getD i.toNat L) (by omega)]
    have ht1 : (i - 1 + 1).toNat = i.toNat := by omega
    constructor
    · simp only [ht1]
      exact getD_irrel H i.toNat _ L hiNat
    · intro h
      exact absurd h htail

/-- C4 witness: the amended undo/redo law applied to the concrete
workspace `live = 4` with the single captured snapshot `3`. -/
theorem C4_undo_redo_witness :
    ((0 : ℤ) ≤ (HistoryState.mk [3] 0 (4 : ℕ)).historyIndex ∧
      (HistoryState.mk [3] 0 (4 : ℕ)).historyIndex <
        ((HistoryState.mk [3] 0 (4 : ℕ)).history.length : ℤ)) ∧
    ((handleRedo (handleUndo (HistoryState.mk [3] 0 (4 : ℕ)))).live =
        (handleUndo (HistoryState.mk [3] 0 (4 : ℕ))).live ∧
      ((HistoryState.mk [3] 0 (4 : ℕ)).historyIndex =
          ((HistoryState.mk [3] 0 (4 : ℕ)).history.length : ℤ) - 1 →
        (handleRedo (handleRedo (handleUndo (HistoryState.mk [3] 0 (4 : ℕ))))).live =
          (HistoryState.mk [3] 0 (4 : ℕ)).live)) :=
  ⟨⟨by decide, by decide⟩, C4_undo_redo ℕ ⟨[3], 0, 4⟩ (by decide) (by decide)⟩

/-! ## Base64 encoding utilities

`uint8ArrayToBase64` builds a binary string from the byte values with
`String.fromCharCode` and applies `btoa`; `base64ToUint8Array` strips a
data-URL prefix (everything up to the first comma) when the string
contains a comma, applies `atob`, and reads the resulting char codes
into a `Uint8Array`.  JavaScript strings are modelled as `List Char`
(the binary string directly as its list of char codes), `btoa` as
`encodeChunks` (defined on the byte values `< 256` that a `Uint8Array`
always holds), and `atob` as `decodeChunks`, with `none` modelling the
`InvalidCharacterError` thrown on malformed input.  `decodeChunks`
models `atob` on padded base64; whitespace stripping and the unpadded
forms accepted by forgiving-base64 never arise from `btoa` output. -/

/-- The base64 alphabet used by `btoa`. -/
def b64Alphabet : List Char :=
  "ABCDEFGHIJKLMNOPQRSTUVWXYZabcdefghijklmnopqrstuvwxyz0123456789+/".toList

/-- The base64 character of a sextet. -/
def b64Char (n : ℕ) : Char := b64Alphabet.getD n 'A'

/-- The sextet of a base64 character, `none` for characters outside the
alphabet (on which `atob` throws). -/
def b64Index (c : Char) : Option ℕ := b64Alphabet.indexOf? c

theorem b64Index_b64Char : ∀ n < 64, b64Index (b64Char n) = some n := by decide

theorem b64Char_ne_comma (n : ℕ) : b64Char n ≠ ',' := by
  by_cases h : n < 64
  · exact (by decide : ∀ m < 64, b64Char m ≠ ',') n h
  · unfold b64Char
    rw [List.getD_eq_default _ _ (by exact le_trans (by decide) (not_lt.mp h))]
    decide

theorem b64Char_ne_pad (n : ℕ) : b64Char n ≠ '=' := by
  by_cases h : n < 64
  · exact (by decide : ∀ m < 64, b64Char m ≠ '=') n h
  · unfold b64Char
    rw [List.getD_eq_default _ _ (by exact le_trans (by decide) (not_lt.mp h))]
    decide

/-- `btoa`: encode the byte stream three bytes at a time into four base64
characters, with `=` padding for a final group of one or two bytes. -/
def encodeChunks : List ℕ → List Char
  | [] => []
  | [a] => [b64Char (a / 4), b64Char (a % 4 * 16), '=', '=']
  | [a, b] => [b64Char (a / 4), b64Char (a % 4 * 16 + b / 16), b64Char (b % 16 * 4), '=']
  | a :: b :: c :: rest =>
    b64Char (a / 4) :: b64Char (a % 4 * 16 + b / 16) ::
      b64Char (b % 16 * 4 + c / 64) :: b64Char (c % 64) :: encodeChunks rest

/-- `atob`: decode four base64 characters at a time into three bytes,
accepting `=` padding only in the final group; `none` on any malformed
input. -/
def decodeChunks : List Char → Option (List ℕ)
  | [] => some []
  | c1 :: c2 :: c3 :: c4 :: rest =>
    (b64Index c1).bind fun s1 =>
    (b64Index c2).bind fun s2 =>
    if c3 = '=' then
      if c4 = '=' ∧ rest = [] then some [s1 * 4 + s2 / 16] else none
    else
      (b64Index c3).bind fun s3 =>
      if c4 = '=' then
        if rest = [] then some [s1 * 4 + s2 / 16, s2 % 16 * 16 + s3 / 4] else none
      else
        (b64Index c4).bind fun s4 =>
        (decodeChunks rest).bind fun ds =>
        some ((s1 * 4 + s2 / 16) :: (s2 % 16 * 16 + s3 / 4) :: (s3 % 4 * 64 + s4) :: ds)
  | _ => none

/-- `uint8ArrayToBase64` from the encoding utilities. -/
def uint8ArrayToBase64 (bytes : List ℕ) : List Char := encodeChunks bytes

/-- `base64ToUint8Array` from the encoding utilities.  The write into the
`Uint8Array` truncates each char code modulo 256 (`decodeChunks` output
is already below 256). -/
def base64ToUint8Array (base64 : List Char) : Option (List ℕ) :=
  let base64Data := if base64.contains ',' then (base64.splitOn ',').getD 1 [] else base64
  (decodeChunks base64Data).map (fun cs => cs.map (· % 256))

theorem contains_eq_false_of_ne {l : List Char} {c : Char} (h : ∀ x ∈ l, x ≠ c) :
    l.contains c = false := by
  induction l with
  | nil => rfl
  | cons a t ih =>
    simp only [List.contains_cons, Bool.or_eq_false_iff]
    constructor
    · simp only [beq_eq_false_iff_ne]
      exact fun hc => h a (List.mem_cons_self a t) hc.symm
    · exact ih fun x hx => h x (List.mem_cons_of_mem a hx)

theorem encodeChunks_ne_comma : ∀ (bytes : List ℕ), ∀ x ∈ encodeChunks bytes, x ≠ ',' := by
  intro bytes
  induction bytes using encodeChunks.induct with
  | case1 =>
    intro x hx
    simp [encodeChunks] at hx
  | case2 a =>
    intro x hx
    simp only [encodeChunks, List.mem_cons, List.not_mem_nil, or_false] at hx
    rcases hx with rfl | rfl | rfl | rfl
    · exact b64Char_ne_comma _
    · exact b64Char_ne_comma _
    · decide
    · decide
  | case3 a b =>
    intro x hx
    simp only [encodeChunks, List.mem_cons, List.not_mem_nil, or_false] at hx
    rcases hx with rfl | rfl | rfl | rfl
    · exact b64Char_ne_comma _
    · exact b64Char_ne_comma _
    · exact b64Char_ne_comma _
    · decide
  | case4 a b c rest ih =>
    intro x hx
    simp only [encodeChunks, List.mem_cons] at hx
    rcases hx with rfl | rfl | rfl | rfl | hmem
    · exact b64Char_ne_comma _
    · exact b64Char_ne_comma _
    · exact b64Char_ne_comma _
    · exact b64Char_ne_comma _
    · exact ih x hmem

/-- Decoding inverts encoding on byte streams. -/
theorem decodeChunks_encodeChunks :
    ∀ (bytes : List ℕ), (∀ b ∈ bytes, b < 256) →
      decodeChunks (encodeChunks bytes) = some bytes := by
  intro bytes
  induction bytes using encodeChunks.induct with
  | case1 => intro _; rfl
  | case2 a =>
    intro h
    have ha : a < 256 := h a (by simp)
    simp only [encodeChunks, decodeChunks]
    rw [b64Index_b64Char _ (by omega), b64Index_b64Char _ (by omega)]
    simp only [Option.some_bind]
    norm_num
    omega
  | case3 a b =>
    intro h
    have ha : a < 256 := h a (by simp)
    have hb : b < 256 := h b (by simp)
    simp only [encodeChunks, decodeChunks]
    rw [b64Index_b64Char _ (by omega), b64Index_b64Char _ (by omega)]
    simp only [Option.some_bind]
    rw [if_neg (b64Char_ne_pad _)]
    rw [b64Index_b64Char _ (by omega)]
    simp only [Option.some_bind]
    norm_num
    omega
  | case4 a b c rest ih =>
    intro h
    have ha : a < 256 := h a (by simp)
    have hb : b < 256 := h b (by simp)
    have hc : c < 256 := h c (by simp)
    have hrest : ∀ x ∈ rest, x < 256 := fun x hx => h x (by simp [hx])
    simp only [encodeChunks, decodeChunks]
    rw [b64Index_b64Char _ (by omega), b64Index_b64Char _ (by omega)]
    simp only [Option.some_bind]
    rw [if_neg (b64Char_ne_pad _)]
    rw [b64Index_b64Char _ (by omega)]
    simp only [Option.some_bind]
    rw [if_neg (b64Char_ne_pad _)]
    rw [b64Index_b64Char _ (by omega)]
    simp only [Option.some_bind]
    rw [ih hrest]
    simp only [Option.some_bind, Option.some.injEq, List.cons.injEq]
    refine ⟨by omega, by omega, by omega, trivial⟩

theorem map_mod256_eq_self : ∀ (l : List ℕ), (∀ b ∈ l, b < 256) → l.map (· % 256) = l
  | [], _ => rfl
  | a :: t, h => by
    simp only [List.map_cons, List.cons.injEq]
    exact ⟨Nat.mod_eq_of_lt (h a (by simp)),
      map_mod256_eq_self t fun x hx => h x (by simp [hx])⟩

/-- C10: decoding the base64 string produced by encoding a byte array
returns the same byte array (element values of a `Uint8Array` are always
below 256). -/
theorem C10_base64_roundTrip (bytes : List ℕ) (h : ∀ b ∈ bytes, b < 256) :
    base64ToUint8Array (uint8ArrayToBase64 bytes) = some bytes := by
  unfold base64ToUint8Array uint8ArrayToBase64
  have hnc : (encodeChunks bytes).contains ',' = false :=
    contains_eq_false_of_ne (encodeChunks_ne_comma bytes)
  simp only [hnc, Bool.false_eq_true, if_false]
  rw [decodeChunks_encodeChunks bytes h]
  show some (bytes.map (· % 256)) = some bytes
  rw [map_mod256_eq_self bytes h]

/-- C10 witness: the byte array `[0, 77, 255]` (all below 256) round
trips through the base64 encoder and decoder. -/
theorem C10_base64_roundTrip_witness :
    (∀ b ∈ ([0, 77, 255] : List ℕ), b < 256) ∧
      base64ToUint8Array (uint8ArrayToBase64 [0, 77, 255]) = some [0, 77, 255] :=
  ⟨by decide, C10_base64_roundTrip [0, 77, 255] (by decide)⟩

/-! ## Style/run resolver

`parseHTMLFormatting` assigns the markup string to a container DIV via
`innerHTML` (the browser parser decodes entities into text node contents)
and walks the node tree depth first.  The parsed DOM is modelled by
`DomNode`/`DomForest`: text nodes, element nodes (with the tag name and
the inline-style properties the walk reads), and a `comment` constructor
for every other node type (skipped by the walk and contributing nothing
to `textContent`).  JavaScript strings are lists of characters. -/

/-- A formatting run (`segments` entry) emitted by `parseHTMLFormatting`. -/
structure Segment where
  text : List Char
  bold : Bool
  italic : Bool
  underline : Bool
  strike : Bool
deriving DecidableEq, Repr

mutual
/-- A parsed DOM node as read by the walk: the tag name and the
`fontWeight`, `fontStyle` and `textDecoration` inline-style strings. -/
inductive DomNode where
  | text (content : List Char)
  | comment (content : List Char)
  | element (tagName styleFontWeight styleFontStyle styleTextDecoration : List Char)
      (children : DomForest)

/-- A list of sibling DOM nodes. -/
inductive DomForest where
  | nil
  | cons (head : DomNode) (tail : DomForest)
end

/-- Leading decimal digits of a char list, `none` when there are none
(`parseInt` returns `NaN`). -/
def leadingNat (l : List Char) : Option ℕ :=
  let ds := l.takeWhile Char.isDigit
  if ds.isEmpty then none
  else some (ds.foldl (fun a c => a * 10 + (c.toNat - 48)) 0)

/-- JavaScript `parseInt` (default radix) on a CSS value: skip leading
whitespace, optional sign, then leading decimal digits; `none` models
`NaN`.  (Hexadecimal `0x` forms do not occur in CSS font weights.) -/
def jsParseInt (s : List Char) : Option ℤ :=
  let t := s.dropWhile (fun c => c == ' ' || c == '\t' || c == '\n' || c == '\r')
  match t with
  | '-' :: rest => (leadingNat rest).map (fun n => -(n : ℤ))
  | '+' :: rest => (leadingNat rest).map (fun n => (n : ℤ))
  | _ => (leadingNat t).map (fun n => (n : ℤ))

/-- `parseInt(style.fontWeight || '0') >= 600` (false on `NaN`). -/
def fontWeightGe600 (fw : List Char) : Bool :=
  match jsParseInt (if fw.isEmpty then ['0'] else fw) with
  | some n => decide (600 ≤ n)
  | none => false

/-- JavaScript `String.prototype.includes`. -/
def containsSub : List Char → List Char → Bool
  | [], needle => needle.isEmpty
  | c :: t, needle => needle.isPrefixOf (c :: t) || containsSub t needle

mutual
/-- The depth-first `walk` of `parseHTMLFormatting`: a non-empty text
node emits one segment with the inherited flags; an element node extends
the flags from its tag name and inline style and recurses into its
children; every other node type is skipped. -/
def walkNode : DomNode → Bool → Bool → Bool → Bool → List Segment
  | .text s, bold, italic, underline, strike =>
    if s.isEmpty then [] else [⟨s, bold, italic, underline, strike⟩]
  | .comment _, _, _, _, _ => []
  | .element tagName fw fs td children, bold, italic, underline, strike =>
    let isBold := bold || tagName == "B".toList || tagName == "STRONG".toList ||
      fw == "bold".toList || fontWeightGe600 fw
    let isItalic := italic || tagName == "I".toList || tagName == "EM".toList ||
      fs == "italic".toList
    let isUnderline := underline || tagName == "U".toList ||
      containsSub td ("underline".toList)
    let isStrike := strike || tagName == "STRIKE".toList || tagName == "S".toList ||
      containsSub td ("line-through".toList)
    walkForest children isBold isItalic isUnderline isStrike

/-- The walk over a child list, in document order. -/
def walkForest : DomForest → Bool → Bool → Bool → Bool → List Segment
  | .nil, _, _, _, _ => []
  | .cons n rest, bold, italic, underline, strike =>
    walkNode n bold italic underline strike ++
      walkForest rest bold italic underline strike
end

/-- `parseHTMLFormatting`: walk the container DIV holding the parsed
markup, all flags initially false (the DIV itself sets none of them).
The `!html` early return for an absent or empty markup string is
modelled by `Option` at the call sites. -/
def parseHTMLFormatting (html : DomForest) : List Segment :=
  walkNode (.element ("DIV".toList) [] [] [] html) false false false false

mutual
/-- Modelled from the spec: the plain-text version of markup — tags
stripped, entities decoded (decoding already happened in the parsed text
node contents) — is the concatenation of all text node contents in
document order (DOM `textContent`, which also excludes comments). -/
def plainTextNode : DomNode → List Char
  | .text s => s
  | .comment _ => []
  | .element _ _ _ _ children => plainTextForest children

/-- Plain text of a sibling list. -/
def plainTextForest : DomForest → List Char
  | .nil => []
  | .cons n rest => plainTextNode n ++ plainTextForest rest
end

/-- Concatenation of the text fields of a run list. -/
def segsText (segs : List Segment) : List Char :=
  segs.foldr (fun s acc => s.text ++ acc) []

theorem segsText_append (a b : List Segment) :
    segsText (a ++ b) = segsText a ++ segsText b := by
  induction a with
  | nil => rfl
  | cons s t ih =>
    show s.text ++ segsText (t ++ b) = (s.text ++ segsText t) ++ segsText b
    rw [ih, List.append_assoc]

mutual
theorem segsText_walkNode :
    ∀ (n : DomNode) (b i u k : Bool), segsText (walkNode n b i u k) = plainTextNode n
  | .text s, b, i, u, k => by
    by_cases hs : s.isEmpty
    · rw [List.isEmpty_iff] at hs
      subst hs
      rfl
    · simp only [walkNode, if_neg hs, plainTextNode]
      show s ++ [] = s
      exact List.append_nil s
  | .comment _, _, _, _, _ => rfl
  | .element t fw fs td c, b, i, u, k => by
    simp only [walkNode, plainTextNode]
    exact segsText_walkForest c _ _ _ _

theorem segsText_walkForest :
    ∀ (f : DomForest) (b i u k : Bool), segsText (walkForest f b i u k) = plainTextForest f
  | .nil, _, _, _, _ => rfl
  | .cons n rest, b, i, u, k => by
    simp only [walkForest, plainTextForest]
    rw [segsText_append, segsText_walkNode n b i u k, segsText_walkForest rest b i u k]
end

/-- C2: for every markup, concatenating the text fields of the ordered
run list produced by flattening it equals the plain text of the markup
(tags stripped; entities were decoded by the DOM parse that produced the
forest).  Empty text nodes are dropped without affecting the
concatenation; adjacent runs are never merged. -/
theorem C2_runs_concat_plainText (html : DomForest) :
    segsText (parseHTMLFormatting html) = plainTextForest html := by
  unfold parseHTMLFormatting
  rw [segsText_walkNode]
  rfl

/-! ## Compositor

`savePdfWithAnnotations` is embedded as a deterministic trace of drawing
operations: page rotations, then text patches, then free annotations,
then images.  External `pdf-lib` behaviour is abstracted: text measuring
by a width oracle `widthOf`, image embedding success by the
`embedPngOk`/`embedJpgOk` oracles, page geometry by a `Page` list. -/

/-- RGB color with components in `[0, 1]` (`pdf-lib`'s `rgb`). -/
structure Color where
  r : ℚ
  g : ℚ
  b : ℚ
deriving DecidableEq, Repr

/-- Value of a hexadecimal digit. -/
def hexDigitVal (c : Char) : Option ℕ :=
  if '0' ≤ c ∧ c ≤ '9' then some (c.toNat - 48)
  else if 'a' ≤ c ∧ c ≤ 'f' then some (c.toNat - 87)
  else if 'A' ≤ c ∧ c ≤ 'F' then some (c.toNat - 55)
  else none

/-- `hexToRgb`: parse a six-digit hex color (optional leading `#`,
case-insensitive), components scaled to `[0, 1]`; black for anything the
regular expression rejects. -/
def hexToRgb (hex : List Char) : Color :=
  let core := match hex with
    | '#' :: rest => rest
    | l => l
  match core with
  | [a, b, c, d, e, f] =>
    match hexDigitVal a, hexDigitVal b, hexDigitVal c,
        hexDigitVal d, hexDigitVal e, hexDigitVal f with
    | some va, some vb, some vc, some vd, some ve, some vf =>
      ⟨((va * 16 + vb : ℕ) : ℚ) / 255, ((vc * 16 + vd : ℕ) : ℚ) / 255,
        ((ve * 16 + vf : ℕ) : ℚ) / 255⟩
    | _, _, _, _, _, _ => ⟨0, 0, 0⟩
  | _ => ⟨0, 0, 0⟩

/-- `pixelsToPoints`: 96 CSS pixels per inch, 72 PDF points per inch. -/
def pixelsToPoints (px : ℚ) : ℚ := px / 96 * 72

/-- The three embeddable font families (Helvetica, Times, Courier). -/
inductive FontFamily where
  | helvetica
  | times
  | courier
deriving DecidableEq, Repr

/-- One of the twelve pre-embedded font variants. -/
structure Font where
  family : FontFamily
  bold : Bool
  italic : Bool
deriving DecidableEq, Repr

/-- `getFont`: select the font variant from the base family name and the
bold/italic flags; unknown or absent family names fall through to the
Helvetica (sans) family. -/
def getFont (family : Option (List Char)) (bold italic : Bool) : Font :=
  let fam : FontFamily :=
    if family = some ("Liberation Serif".toList) then .times
    else if family = some ("DejaVu Sans Mono".toList) then .courier
    else .helvetica
  if bold && italic then ⟨fam, true, true⟩
  else if bold then ⟨fam, true, false⟩
  else if italic then ⟨fam, false, true⟩
  else ⟨fam, false, false⟩

/-- A source page: size in points and stored rotation. -/
structure Page where
  width : ℚ
  height : ℚ
  rotation : ℤ
deriving DecidableEq, Repr

/-- One drawing operation against an output page (pages carry their
1-based number from the annotation data). -/
inductive DrawOp where
  | setRotation (page : ℤ) (angle : ℤ)
  | rect (page : ℤ) (x y w h : ℚ) (color : Color)
  | text (page : ℤ) (s : List Char) (x y size : ℚ) (font : Font) (color : Color)
  | line (page : ℤ) (x1 y1 x2 y2 : ℚ) (color : Color)
  | image (page : ℤ) (png : Bool) (bytes : List ℕ) (x y w h : ℚ)
deriving DecidableEq, Repr

/-- `drawSegments`: measure every run with the selected font variant,
compute the start X from the alignment and the total line width, then
draw each run left to right with its underline/strikethrough lines
(both at thickness 1). -/
def drawSegments (widthOf : Font → List Char → ℚ → ℚ) (page : ℤ)
    (segments : List Segment) (x y w h fontSize : ℚ)
    (baseFontFamily : Option (List Char)) (baseColor : Color)
    (alignment : Option (List Char)) (paddingX paddingY : ℚ) : List DrawOp :=
  let currentY := y + h - paddingY - fontSize
  let measured := segments.map fun seg =>
    (seg, getFont baseFontFamily seg.bold seg.italic,
      widthOf (getFont baseFontFamily seg.bold seg.italic) seg.text fontSize)
  let totalLineWidth := (measured.map fun m => m.2.2).sum
  let startX :=
    if alignment = some ("center".toList) then x + w / 2 - totalLineWidth / 2
    else if alignment = some ("right".toList) then x + w - paddingX - totalLineWidth
    else x + paddingX
  (measured.foldl (fun acc m =>
    let seg := m.1
    let width := m.2.2
    (acc.1 ++
      [DrawOp.text page seg.text acc.2 currentY fontSize m.2.1 baseColor] ++
      (if seg.underline then
        [DrawOp.line page acc.2 (currentY - 2) (acc.2 + width) (currentY - 2) baseColor]
      else []) ++
      (if seg.strike then
        [DrawOp.line page acc.2 (currentY + fontSize / 3) (acc.2 + width)
          (currentY + fontSize / 3) baseColor]
      else []),
      acc.2 + width)) ([], startX)).1

/-- The run list drawn by `drawContent`: the markup's flattened runs, or
a single fallback run from the plain-text field and the base bold/italic
flags (underline and strike false) when the markup is absent/empty
(`!html`) or yields zero segments. -/
def resolveRuns (html : Option DomForest) (fallbackText : List Char)
    (baseBold baseItalic : Bool) : List Segment :=
  match html with
  | none => [⟨fallbackText, baseBold, baseItalic, false, false⟩]
  | some m =>
    let segments := parseHTMLFormatting m
    if segments.length = 0 then [⟨fallbackText, baseBold, baseItalic, false, false⟩]
    else segments

/-- `drawContent`: convert the pixel sizes to points and draw the
resolved runs (all three source branches call `drawSegments` with the
same layout arguments). -/
def drawContent (widthOf : Font → List Char → ℚ → ℚ) (page : ℤ)
    (html : Option DomForest) (fallbackText : List Char)
    (x y w h baseFontSize : ℚ) (baseFontFamily : Option (List Char))
    (baseColor : Color) (alignment : Option (List Char))
    (baseBold baseItalic : Bool) : List DrawOp :=
  drawSegments widthOf page (resolveRuns html fallbackText baseBold baseItalic)
    x y w h (pixelsToPoints baseFontSize) baseFontFamily baseColor alignment
    (pixelsToPoints 6) (pixelsToPoints 4)

/-- A detected glyph bounding box, normalized to `[0, 1]`. -/
structure BBox where
  x : ℚ
  y : ℚ
  width : ℚ
  height : ℚ
deriving DecidableEq, Repr

/-- `EditTextPatch` (the fields the compositor reads).  `newTextDom`
models the DOM parse of `newText` for the `patch.html || patch.newText`
fallback; `html = none` models an absent or empty markup string. -/
structure EditTextPatch where
  id : List Char
  fileId : List Char
  page : ℤ
  bbox : BBox
  originalText : List Char
  newText : List Char
  newTextDom : DomForest
  html : Option DomForest
  bold : Option Bool
  italic : Option Bool
  underline : Option Bool
  strike : Option Bool
  fontSize : Option ℚ
  color : Option (List Char)
  fontFamily : Option (List Char)
  textAlign : Option (List Char)

/-- `TextAnnotation` (the fields the compositor reads); `textDom` models
the DOM parse of `text` for the `ann.html || ann.text` fallback. -/
structure TextAnnotation where
  id : List Char
  page : ℤ
  x : ℚ
  y : ℚ
  width : Option ℚ
  height : Option ℚ
  text : List Char
  textDom : DomForest
  html : Option DomForest
  bold : Bool
  italic : Bool
  underline : Bool
  strike : Bool
  fontSize : ℚ
  color : List Char
  fontFamily : Option (List Char)
  textAlign : Option (List Char)

/-- `ImageAnnotation`: a placed raster image with its data URL. -/
structure ImageAnnotation where
  id : List Char
  page : ℤ
  x : ℚ
  y : ℚ
  width : ℚ
  height : ℚ
  dataUrl : List Char

/-- JavaScript `v || d` on an optional number (absent and `0` are falsy). -/
def jsOrQ (v : Option ℚ) (dflt : ℚ) : ℚ :=
  match v with
  | some q => if q = 0 then dflt else q
  | none => dflt

/-- JavaScript `!!` on an optional boolean. -/
def bb (v : Option Bool) : Bool := v.getD false

/-- The markup argument `entity.html || entity.plainText`: the rich
markup when present (and non-empty), otherwise the plain text parsed as
markup; an empty plain text is falsy and hits the `!html` fallback. -/
def htmlOrText (html : Option DomForest) (plain : List Char) (plainDom : DomForest) :
    Option DomForest :=
  match html with
  | some m => some m
  | none => if plain.isEmpty then none else some plainDom

/-- The patch rectangle in page points: `x = bbox.x·W`,
`w = bbox.width·W`, `h = bbox.height·H`, `y = H − bbox.y·H − h`
(bottom-left origin, vertical axis flipped). -/
def patchPdfRect (bbox : BBox) (width height : ℚ) : Rect :=
  let x := bbox.x * width
  let w := bbox.width * width
  let h := bbox.height * height
  let y := height - bbox.y * height - h
  ⟨x, y, w, h⟩

/-- A page-point rect back in canonical space (the inverse of the
page-point conversion; used to state the containment contract). -/
def pdfRectToCanonical (r : Rect) (width height : ℚ) : BBox :=
  ⟨r.x / width, (height - r.y - r.h) / height, r.w / width, r.h / height⟩

/-- `outer` fully contains `inner` (canonical-space boxes). -/
def bboxContains (outer inner : BBox) : Prop :=
  outer.x ≤ inner.x ∧ inner.x + inner.width ≤ outer.x + outer.width ∧
    outer.y ≤ inner.y ∧ inner.y + inner.height ≤ outer.y + outer.height

/-- Ops for one in-range text patch: opaque white rectangle over the
detected bbox, then the rich text. -/
def patchBody (widthOf : Font → List Char → ℚ → ℚ) (pages : List Page)
    (patch : EditTextPatch) : List DrawOp :=
  let page := pages.getD (patch.page - 1).toNat ⟨0, 0, 0⟩
  let r := patchPdfRect patch.bbox page.width page.height
  let color := match patch.color with
    | some c => if c.isEmpty then Color.mk 0 0 0 else hexToRgb c
    | none => Color.mk 0 0 0
  DrawOp.rect patch.page r.x r.y r.w r.h ⟨1, 1, 1⟩ ::
    drawContent widthOf patch.page
      (htmlOrText patch.html patch.newText patch.newTextDom) patch.newText
      r.x r.y r.w r.h (jsOrQ patch.fontSize 12) patch.fontFamily color patch.textAlign
      (bb patch.bold) (bb patch.italic)

/-- The patch loop; out-of-range pages are skipped (`continue`). -/
def patchesOps (widthOf : Font → List Char → ℚ → ℚ) (pages : List Page) :
    List EditTextPatch → List DrawOp
  | [] => []
  | patch :: rest =>
    if patch.page < 1 ∨ patch.page > (pages.length : ℤ) then patchesOps widthOf pages rest
    else patchBody widthOf pages patch ++ patchesOps widthOf pages rest

/-- Ops for one in-range free text annotation: estimated white
background box (line count from the average-glyph-width heuristic), then
the rich text. -/
def annotationBody (widthOf : Font → List Char → ℚ → ℚ) (pages : List Page)
    (ann : TextAnnotation) : List DrawOp :=
  let page := pages.getD (ann.page - 1).toNat ⟨0, 0, 0⟩
  let x := ann.x * page.width
  let maxWidth := jsOrQ ann.width (32/100) * page.width
  let fontSize := pixelsToPoints ann.fontSize
  let paddingX := pixelsToPoints 6
  let paddingY := pixelsToPoints 4
  let lineHeight := fontSize * (13/10)
  let avgCharWidth := fontSize * (1/2)
  let textWidth := (ann.text.length : ℚ) * avgCharWidth
  let contentWidth := maxWidth - paddingX * 2
  let estimatedLines : ℤ := max 1 (Int.ceil (textWidth / contentWidth))
  let estimatedHeight := (estimatedLines : ℚ) * lineHeight + paddingY * 2
  let y := page.height - ann.y * page.height - estimatedHeight
  let color := hexToRgb ann.color
  DrawOp.rect ann.page x y maxWidth estimatedHeight ⟨1, 1, 1⟩ ::
    drawContent widthOf ann.page (htmlOrText ann.html ann.text ann.textDom) ann.text
      x y maxWidth estimatedHeight ann.fontSize ann.fontFamily color ann.textAlign
      ann.bold ann.italic

/-- The free-annotation loop; out-of-range pages are skipped. -/
def annotationsOps (widthOf : Font → List Char → ℚ → ℚ) (pages : List Page) :
    List TextAnnotation → List DrawOp
  | [] => []
  | ann :: rest =>
    if ann.page < 1 ∨ ann.page > (pages.length : ℤ) then annotationsOps widthOf pages rest
    else annotationBody widthOf pages ann ++ annotationsOps widthOf pages rest

/-- Decode the data URL and embed the raster: bytes starting with the
PNG signature `89 50 4E 47` go to `embedPng`, everything else to
`embedJpg`.  `none` is any thrown error — invalid base64 or a failed
embed of a corrupt/unsupported payload — caught by the surrounding
try/catch. -/
def embedImageResult (embedPngOk embedJpgOk : List ℕ → Bool) (dataUrl : List Char) :
    Option (Bool × List ℕ) :=
  match base64ToUint8Array dataUrl with
  | none => none
  | some imgBytes =>
    let header := imgBytes.take 4
    let isPng := header.get? 0 == some 0x89 && header.get? 1 == some 0x50 &&
      header.get? 2 == some 0x4E && header.get? 3 == some 0x47
    if isPng then (if embedPngOk imgBytes then some (true, imgBytes) else none)
    else (if embedJpgOk imgBytes then some (false, imgBytes) else none)

/-- Ops for one in-range image annotation; a failed embed contributes
nothing (the error is caught and logged). -/
def imageBody (embedPngOk embedJpgOk : List ℕ → Bool) (pages : List Page)
    (imgAnn : ImageAnnotation) : List DrawOp :=
  let page := pages.getD (imgAnn.page - 1).toNat ⟨0, 0, 0⟩
  let x := imgAnn.x * page.width
  let w := imgAnn.width * page.width
  let h := imgAnn.height * page.height
  let y := page.height - imgAnn.y * page.height - h
  match embedImageResult embedPngOk embedJpgOk imgAnn.dataUrl with
  | none => []
  | some (png, bytes) => [DrawOp.image imgAnn.page png bytes x y w h]

/-- The image loop; out-of-range pages are skipped and per-item embed
failures are caught and skipped. -/
def imagesOps (embedPngOk embedJpgOk : List ℕ → Bool) (pages : List Page) :
    List ImageAnnotation → List DrawOp
  | [] => []
  | imgAnn :: rest =>
    if imgAnn.page < 1 ∨ imgAnn.page > (pages.length : ℤ) then
      imagesOps embedPngOk embedJpgOk pages rest
    else imageBody embedPngOk embedJpgOk pages imgAnn ++
      imagesOps embedPngOk embedJpgOk pages rest

/-- The rotation pass: every page whose rotation-map entry exists and is
non-zero gets the delta added to its stored rotation. -/
def rotationOps (pageRotations : ℤ → Option ℤ) : List Page → ℤ → List DrawOp
  | [], _ => []
  | p :: rest, idx =>
    (match pageRotations (idx + 1) with
     | some rot => if rot ≠ 0 then [DrawOp.setRotation (idx + 1) (p.rotation + rot)] else []
     | none => []) ++ rotationOps pageRotations rest (idx + 1)

/-- The ops trace of `savePdfWithAnnotations`: rotations, then patches,
then free annotations, then images. -/
def savePdfWithAnnotationsOps (embedPngOk embedJpgOk : List ℕ → Bool)
    (widthOf : Font → List Char → ℚ → ℚ) (pages : List Page)
    (annotations : List TextAnnotation) (patches : List EditTextPatch)
    (pageRotations : ℤ → Option ℤ) (imageAnnotations : List ImageAnnotation) :
    List DrawOp :=
  rotationOps pageRotations pages 0 ++ patchesOps widthOf pages patches ++
    annotationsOps widthOf pages annotations ++
    imagesOps embedPngOk embedJpgOk pages imageAnnotations

/-! ## Merge -/

/-- The `mergePdfs` loop: for each input, load it and append all of its
pages (via `copyPages` over all page indices) to the accumulating
document.  `load` models `PDFDocument.load` with documents abstracted to
their page lists; `none` is a thrown parse error, which propagates. -/
def mergeLoop {Bytes PdfPage : Type*} (load : Bytes → Option (List PdfPage)) :
    List Bytes → List PdfPage → Option (List PdfPage)
  | [], acc => some acc
  | b :: rest, acc =>
    match load b with
    | none => none
    | some pages => mergeLoop load rest (acc ++ pages)

/-- `mergePdfs`: start from an empty document, run the loop, serialize. -/
def mergePdfs {Bytes PdfPage : Type*} (load : Bytes → Option (List PdfPage))
    (save : List PdfPage → Bytes) (pdfBytesArray : List Bytes) : Option Bytes :=
  (mergeLoop load pdfBytesArray []).map save

/-- The failure modes of the merge operation as seen by the caller. -/
inductive MergeError where
  | validation
  | loadError
deriving DecidableEq, Repr

/-- `performMergeByIds`: gather the byte buffers of the requested ids
(ids with no file or no binary data are skipped; edited files contribute
their composited bytes — `gathered` holds the per-id resolution), throw
the validation error when fewer than two buffers remain, then merge. -/
def performMergeByIds {Bytes PdfPage : Type*} (load : Bytes → Option (List PdfPage))
    (save : List PdfPage → Bytes) (gathered : List (Option Bytes)) :
    Except MergeError Bytes :=
  let blobsToMerge := gathered.filterMap id
  if blobsToMerge.length < 2 then .error .validation
  else
    match mergePdfs load save blobsToMerge with
    | none => .error .loadError
    | some bytes => .ok bytes

/-- A markup that flattens to zero runs (an empty `B` element, the parse
of the string enclosing nothing in bold tags). -/
def emptyBoldMarkup : DomForest :=
  .cons (.element ("B".toList) [] [] [] .nil) .nil

/-- A concrete annotation with base underline and strike flags set, whose
markup yields zero runs. -/
def c9Annotation : TextAnnotation :=
  { id := "a1".toList, page := 1, x := 0, y := 0, width := none, height := none,
    text := "hi".toList, textDom := .cons (.text ("hi".toList)) .nil,
    html := some emptyBoldMarkup,
    bold := false, italic := false, underline := true, strike := true,
    fontSize := 14, color := "#000000".toList, fontFamily := none, textAlign := none }

/-- Modelled from the claim (for refutation): a fallback run carrying all
four of the entity's base style flags. -/
def claimFallbackRun (text : List Char) (bold italic underline strike : Bool) : Segment :=
  ⟨text, bold, italic, underline, strike⟩

/-! ## Compositor and merge theorems -/

/-- C5: for every text patch on an in-range page, the first op the
compositor emits for it is an opaque white rectangle at `x = bbox.x·W`,
`w = bbox.width·W`, `h = bbox.height·H` and
`y = H − bbox.y·H − bbox.height·H` (bottom-left origin, axis flipped);
converted back to canonical space the whiteout rectangle equals, hence
fully contains, the detected glyph bbox. -/
theorem C5_patch_whiteout (widthOf : Font → List Char → ℚ → ℚ) (pages : List Page)
    (patch : EditTextPatch) (rest : List EditTextPatch)
    (h1 : 1 ≤ patch.page) (h2 : patch.page ≤ (pages.length : ℤ))
    (hW : 0 < (pages.getD (patch.page - 1).toNat ⟨0, 0, 0⟩).width)
    (hH : 0 < (pages.getD (patch.page - 1).toNat ⟨0, 0, 0⟩).height) :
    (patchesOps widthOf pages (patch :: rest)).head? =
      some (DrawOp.rect patch.page
        (patch.bbox.x * (pages.getD (patch.page - 1).toNat ⟨0, 0, 0⟩).width)
        ((pages.getD (patch.page - 1).toNat ⟨0, 0, 0⟩).height -
          patch.bbox.y * (pages.getD (patch.page - 1).toNat ⟨0, 0, 0⟩).height -
          patch.bbox.height * (pages.getD (patch.page - 1).toNat ⟨0, 0, 0⟩).height)
        (patch.bbox.width * (pages.getD (patch.page - 1).toNat ⟨0, 0, 0⟩).width)
        (patch.bbox.height * (pages.getD (patch.page - 1).toNat ⟨0, 0, 0⟩).height)
        ⟨1, 1, 1⟩) ∧
    pdfRectToCanonical
        (patchPdfRect patch.bbox (pages.getD (patch.page - 1).toNat ⟨0, 0, 0⟩).width
          (pages.getD (patch.page - 1).toNat ⟨0, 0, 0⟩).height)
        (pages.getD (patch.page - 1).toNat ⟨0, 0, 0⟩).width
        (pages.getD (patch.page - 1).toNat ⟨0, 0, 0⟩).height = patch.bbox ∧
    bboxContains
      (pdfRectToCanonical
        (patchPdfRect patch.bbox (pages.getD (patch.page - 1).toNat ⟨0, 0, 0⟩).width
          (pages.getD (patch.page - 1).toNat ⟨0, 0, 0⟩).height)
        (pages.getD (patch.page - 1).toNat ⟨0, 0, 0⟩).width
        (pages.getD (patch.page - 1).toNat ⟨0, 0, 0⟩).height)
      patch.bbox := by
  set pg := pages.getD (patch.page - 1).toNat ⟨0, 0, 0⟩ with hpg
  have hconv : pdfRectToCanonical (patchPdfRect patch.bbox pg.width pg.height)
      pg.width pg.height = patch.bbox := by
    obtain ⟨bx, bY, bw, bh⟩ := patch.bbox
    simp only [pdfRectToCanonical, patchPdfRect, BBox.mk.injEq]
    refine ⟨?_, ?_, ?_, ?_⟩
    · exact mul_div_cancel_right₀ bx hW.ne'
    · field_simp
      ring
    · exact mul_div_cancel_right₀ bw hW.ne'
    · exact mul_div_cancel_right₀ bh hH.ne'
  refine ⟨?_, hconv, by rw [hconv]; exact ⟨le_refl _, le_refl _, le_refl _, le_refl _⟩⟩
  have hguard : ¬(patch.page < 1 ∨ patch.page > (pages.length : ℤ)) := by omega
  simp only [patchesOps, if_neg hguard, patchBody, List.cons_append, List.head?_cons,
    patchPdfRect]

/-- The patch loop drops an out-of-range patch wherever it sits and
processes everything else unchanged. -/
theorem patchesOps_skip (widthOf : Font → List Char → ℚ → ℚ) (pages : List Page)
    (p : EditTextPatch) (hp : p.page < 1 ∨ p.page > (pages.length : ℤ)) :
    ∀ (ps1 ps2 : List EditTextPatch),
      patchesOps widthOf pages (ps1 ++ p :: ps2) = patchesOps widthOf pages (ps1 ++ ps2)
  | [], ps2 => by
    simp only [List.nil_append, patchesOps, if_pos hp]
  | q :: t, ps2 => by
    simp only [List.cons_append, patchesOps, List.append_eq,
      patchesOps_skip widthOf pages p hp t ps2]

/-- The annotation loop drops an out-of-range annotation wherever it
sits and processes everything else unchanged. -/
theorem annotationsOps_skip (widthOf : Font → List Char → ℚ → ℚ) (pages : List Page)
    (a : TextAnnotation) (ha : a.page < 1 ∨ a.page > (pages.length : ℤ)) :
    ∀ (as1 as2 : List TextAnnotation),
      annotationsOps widthOf pages (as1 ++ a :: as2) =
        annotationsOps widthOf pages (as1 ++ as2)
  | [], as2 => by
    simp only [List.nil_append, annotationsOps, if_pos ha]
  | q :: t, as2 => by
    simp only [List.cons_append, annotationsOps, List.append_eq,
      annotationsOps_skip widthOf pages a ha t as2]

/-- The image loop drops an out-of-range image wherever it sits and
processes everything else unchanged. -/
theorem imagesOps_skip (embedPngOk embedJpgOk : List ℕ → Bool) (pages : List Page)
    (im : ImageAnnotation) (hi : im.page < 1 ∨ im.page > (pages.length : ℤ)) :
    ∀ (is1 is2 : List ImageAnnotation),
      imagesOps embedPngOk embedJpgOk pages (is1 ++ im :: is2) =
        imagesOps embedPngOk embedJpgOk pages (is1 ++ is2)
  | [], is2 => by
    simp only [List.nil_append, imagesOps, if_pos hi]
  | q :: t, is2 => by
    simp only [List.cons_append, imagesOps, List.append_eq,
      imagesOps_skip embedPngOk embedJpgOk pages im hi t is2]

/-- C6: an annotation, patch and image whose page exceeds the page count
are silently skipped wherever they sit in their lists; the composite
continues and its output equals the output without them. -/
theorem C6_out_of_range_skipped (embedPngOk embedJpgOk : List ℕ → Bool)
    (widthOf : Font → List Char → ℚ → ℚ) (pages : List Page)
    (pageRotations : ℤ → Option ℤ)
    (as1 as2 : List TextAnnotation) (a : TextAnnotation)
    (ps1 ps2 : List EditTextPatch) (p : EditTextPatch)
    (is1 is2 : List ImageAnnotation) (im : ImageAnnotation)
    (ha : (pages.length : ℤ) < a.page) (hp : (pages.length : ℤ) < p.page)
    (hi : (pages.length : ℤ) < im.page) :
    savePdfWithAnnotationsOps embedPngOk embedJpgOk widthOf pages
        (as1 ++ a :: as2) (ps1 ++ p :: ps2) pageRotations (is1 ++ im :: is2) =
      savePdfWithAnnotationsOps embedPngOk embedJpgOk widthOf pages
        (as1 ++ as2) (ps1 ++ ps2) pageRotations (is1 ++ is2) := by
  unfold savePdfWithAnnotationsOps
  rw [patchesOps_skip widthOf pages p (Or.inr hp) ps1 ps2,
    annotationsOps_skip widthOf pages a (Or.inr ha) as1 as2,
    imagesOps_skip embedPngOk embedJpgOk pages im (Or.inr hi) is1 is2]

/-- The image loop drops an image whose embed fails wherever it sits and
processes everything else unchanged. -/
theorem imagesOps_skip_embed_failure (embedPngOk embedJpgOk : List ℕ → Bool)
    (pages : List Page) (im : ImageAnnotation)
    (hfail : embedImageResult embedPngOk embedJpgOk im.dataUrl = none) :
    ∀ (is1 is2 : List ImageAnnotation),
      imagesOps embedPngOk embedJpgOk pages (is1 ++ im :: is2) =
        imagesOps embedPngOk embedJpgOk pages (is1 ++ is2)
  | [], is2 => by
    simp only [List.nil_append, imagesOps]
    by_cases hg : im.page < 1 ∨ im.page > (pages.length : ℤ)
    · rw [if_pos hg]
    · rw [if_neg hg]
      simp only [imageBody, hfail, List.nil_append]
  | q :: t, is2 => by
    simp only [List.cons_append, imagesOps, List.append_eq,
      imagesOps_skip_embed_failure embedPngOk embedJpgOk pages im hfail t is2]

/-- C7: an image annotation whose payload cannot be embedded (invalid
base64 or a failed `embedPng`/`embedJpg`) is skipped and the composite
continues: the output equals the output without that image, with every
patch, annotation and other image still applied.  The patch and
annotation passes have no failure channel in the model (no oracle and no
`Option`): image embedding is the only per-item failure-tolerant step. -/
theorem C7_corrupt_image_skipped (embedPngOk embedJpgOk : List ℕ → Bool)
    (widthOf : Font → List Char → ℚ → ℚ) (pages : List Page)
    (annotations : List TextAnnotation) (patches : List EditTextPatch)
    (pageRotations : ℤ → Option ℤ)
    (is1 is2 : List ImageAnnotation) (im : ImageAnnotation)
    (hfail : embedImageResult embedPngOk embedJpgOk im.dataUrl = none) :
    savePdfWithAnnotationsOps embedPngOk embedJpgOk widthOf pages
        annotations patches pageRotations (is1 ++ im :: is2) =
      savePdfWithAnnotationsOps embedPngOk embedJpgOk widthOf pages
        annotations patches pageRotations (is1 ++ is2) := by
  unfold savePdfWithAnnotationsOps
  rw [imagesOps_skip_embed_failure embedPngOk embedJpgOk pages im hfail is1 is2]

/-- C9, counterexample: a concrete entity whose markup yields zero runs
and whose base underline and strike flags are set draws a fallback run
with underline and strike false — not the run carrying all four base
style flags that the claim describes. -/
theorem C9_counterexample :
    resolveRuns c9Annotation.html c9Annotation.text c9Annotation.bold c9Annotation.italic ≠
      [claimFallbackRun c9Annotation.text c9Annotation.bold c9Annotation.italic
        c9Annotation.underline c9Annotation.strike] := by
  decide

/-- C9 (amended): for every entity whose rich markup yields zero
formatting runs, the drawn content is a single run built from the
entity's plain-text field carrying the entity's base bold and italic
flags, with underline and strike always false in the fallback run. -/
theorem C9_fallback_run (html : Option DomForest) (fallbackText : List Char)
    (baseBold baseItalic : Bool)
    (hzero : ∀ m, html = some m → parseHTMLFormatting m = []) :
    resolveRuns html fallbackText baseBold baseItalic =
      [⟨fallbackText, baseBold, baseItalic, false, false⟩] := by
  cases html with
  | none => rfl
  | some m =>
    simp only [resolveRuns, hzero m rfl, List.length_nil, ite_true]

/-- C9 witness: the fallback run for the concrete plain text `hi` with
base bold set, on the zero-run markup `<b></b>`. -/
theorem C9_fallback_run_witness :
    (∀ m, (some emptyBoldMarkup : Option DomForest) = some m →
      parseHTMLFormatting m = []) ∧
    resolveRuns (some emptyBoldMarkup) ("hi".toList) true false =
      [⟨"hi".toList, true, false, false, false⟩] :=
  ⟨fun m hm => by cases hm; rfl,
    C9_fallback_run (some emptyBoldMarkup) ("hi".toList) true false
      (fun m hm => by cases hm; rfl)⟩

/-- The merge loop appends, in array order, the page lists of inputs
that all load. -/
theorem mergeLoop_append {Bytes PdfPage : Type*} (load : Bytes → Option (List PdfPage)) :
    ∀ (arr : List Bytes) (docs : List (List PdfPage)) (acc : List PdfPage),
      arr.mapM load = some docs → mergeLoop load arr acc = some (acc ++ docs.flatten)
  | [], docs, acc, h => by
    simp only [List.mapM_nil, pure, Option.some.injEq] at h
    subst h
    simp [mergeLoop]
  | b :: rest, docs, acc, h => by
    rw [List.mapM_cons] at h
    cases hlb : load b with
    | none =>
      rw [hlb] at h
      simp at h
    | some d =>
      rw [hlb] at h
      cases hrest : rest.mapM load with
      | none =>
        rw [hrest] at h
        simp at h
      | some ds =>
        rw [hrest] at h
        simp at h
        subst h
        simp only [mergeLoop, hlb]
        rw [mergeLoop_append load rest ds (acc ++ d) hrest]
        simp [List.append_assoc]

/-- C8: with fewer than two valid gathered byte buffers the merge fails
with the validation error before any document is loaded or any page
copied (for every loader); when at least two buffers are gathered and
all of them load, the merged output is the save of exactly the inputs'
pages concatenated in array order, otherwise unmodified. -/
theorem C8_merge_validation_and_order {Bytes PdfPage : Type*}
    (load : Bytes → Option (List PdfPage)) (save : List PdfPage → Bytes)
    (gathered : List (Option Bytes)) :
    ((gathered.filterMap id).length < 2 →
      ∀ load2 : Bytes → Option (List PdfPage),
        performMergeByIds load2 save gathered = .error .validation) ∧
    (2 ≤ (gathered.filterMap id).length →
      ∀ docs : List (List PdfPage), (gathered.filterMap id).mapM load = some docs →
        performMergeByIds load save gathered = .ok (save docs.flatten)) := by
  constructor
  · intro hlt load2
    simp only [performMergeByIds, if_pos hlt]
  · intro hge docs hdocs
    simp only [performMergeByIds, if_neg (not_lt.mpr hge), mergePdfs]
    rw [mergeLoop_append load (gathered.filterMap id) docs [] hdocs]
    simp

/-- C8 witness: `[some 1]` fails validation for every loader; gathering
`[some 1, none, some 2]` with the loader `b ↦ [b]` merges to the pages
`[1, 2]` in order. -/
theorem C8_merge_validation_and_order_witness :
    ((([some 1] : List (Option ℕ)).filterMap id).length < 2 ∧
      performMergeByIds (fun b => some [b]) (fun l : List ℕ => l.sum) [some 1] =
        .error .validation) ∧
    (2 ≤ (([some 1, none, some 2] : List (Option ℕ)).filterMap id).length ∧
      (([some 1, none, some 2] : List (Option ℕ)).filterMap id).mapM
          (fun b => some [b]) = some [[1], [2]] ∧
      performMergeByIds (fun b => some [b]) (fun l : List ℕ => l.sum)
          [some 1, none, some 2] =
        .ok ((([[1], [2]] : List (List ℕ)).flatten).sum)) :=
  ⟨⟨by decide,
      (C8_merge_validation_and_order (fun b => some [b]) (fun l : List ℕ => l.sum)
        [some 1]).1 (by decide) _⟩,
    ⟨by decide, by decide,
      (C8_merge_validation_and_order (fun b => some [b]) (fun l : List ℕ => l.sum)
        [some 1, none, some 2]).2 (by decide) [[1], [2]] (by decide)⟩⟩

/-- A one-page document geometry (US letter, no stored rotation). -/
def onePage : List Page := [⟨612, 792, 0⟩]

/-- A concrete patch on page 1 (C5 witness). -/
def c5Patch : EditTextPatch :=
  { id := "p1".toList, fileId := "f1".toList, page := 1,
    bbox := ⟨1/10, 1/5, 3/10, 1/20⟩,
    originalText := "old".toList, newText := "new".toList,
    newTextDom := .cons (.text ("new".toList)) .nil, html := none,
    bold := none, italic := none, underline := none, strike := none,
    fontSize := none, color := none, fontFamily := none, textAlign := none }

/-- A patch referencing page 2 of a one-page document (C6 witness). -/
def c6Patch : EditTextPatch :=
  { c5Patch with page := 2 }

/-- An annotation referencing page 2 of a one-page document (C6 witness). -/
def c6Annotation : TextAnnotation :=
  { c9Annotation with page := 2 }

/-- An image annotation referencing page 2 (C6 witness). -/
def c6Image : ImageAnnotation :=
  { id := "i1".toList, page := 2, x := 0, y := 0, width := 1/10, height := 1/10,
    dataUrl := "iVBORw0KGgo=".toList }

/-- An image annotation on page 1 whose data URL is not valid base64
(C7 witness). -/
def c7Image : ImageAnnotation :=
  { id := "i2".toList, page := 1, x := 0, y := 0, width := 1/10, height := 1/10,
    dataUrl := "!".toList }

/-- C5 witness: the whiteout law applied to the concrete patch
`c5Patch` on a one-page US-letter document. -/
theorem C5_patch_whiteout_witness :
    ((1 : ℤ) ≤ c5Patch.page ∧ c5Patch.page ≤ (onePage.length : ℤ) ∧
      0 < (onePage.getD (c5Patch.page - 1).toNat ⟨0, 0, 0⟩).width ∧
      0 < (onePage.getD (c5Patch.page - 1).toNat ⟨0, 0, 0⟩).height) ∧
    pdfRectToCanonical
        (patchPdfRect c5Patch.bbox (onePage.getD (c5Patch.page - 1).toNat ⟨0, 0, 0⟩).width
          (onePage.getD (c5Patch.page - 1).toNat ⟨0, 0, 0⟩).height)
        (onePage.getD (c5Patch.page - 1).toNat ⟨0, 0, 0⟩).width
        (onePage.getD (c5Patch.page - 1).toNat ⟨0, 0, 0⟩).height = c5Patch.bbox :=
  ⟨⟨by decide, by decide, by norm_num [onePage, c5Patch], by norm_num [onePage, c5Patch]⟩,
    (C5_patch_whiteout (fun _ _ _ => 0) onePage c5Patch [] (by decide) (by decide)
      (by norm_num [onePage, c5Patch]) (by norm_num [onePage, c5Patch])).2.1⟩

/-- C6 witness: a patch, an annotation and an image all referencing page
2 of a one-page document are skipped and the composite output equals the
output without them. -/
theorem C6_out_of_range_skipped_witness :
    ((onePage.length : ℤ) < c6Annotation.page ∧ (onePage.length : ℤ) < c6Patch.page ∧
      (onePage.length : ℤ) < c6Image.page) ∧
    savePdfWithAnnotationsOps (fun _ => true) (fun _ => true) (fun _ _ _ => 0) onePage
        ([] ++ c6Annotation :: []) ([] ++ c6Patch :: []) (fun _ => none)
        ([] ++ c6Image :: []) =
      savePdfWithAnnotationsOps (fun _ => true) (fun _ => true) (fun _ _ _ => 0) onePage
        ([] ++ []) ([] ++ []) (fun _ => none) ([] ++ []) :=
  ⟨⟨by decide, by decide, by decide⟩,
    C6_out_of_range_skipped (fun _ => true) (fun _ => true) (fun _ _ _ => 0) onePage
      (fun _ => none) [] [] c6Annotation [] [] c6Patch [] [] c6Image
      (by decide) (by decide) (by decide)⟩

/-- C7 witness: an image with an undecodable payload on an in-range page
is skipped and the composite output equals the output without it. -/
theorem C7_corrupt_image_skipped_witness :
    embedImageResult (fun _ => true) (fun _ => true) c7Image.dataUrl = none ∧
    savePdfWithAnnotationsOps (fun _ => true) (fun _ => true) (fun _ _ _ => 0) onePage
        [] [] (fun _ => none) ([] ++ c7Image :: []) =
      savePdfWithAnnotationsOps (fun _ => true) (fun _ => true) (fun _ _ _ => 0) onePage
        [] [] (fun _ => none) ([] ++ []) :=
  ⟨by rfl,
    C7_corrupt_image_skipped (fun _ => true) (fun _ => true) (fun _ _ _ => 0) onePage
      [] [] (fun _ => none) [] [] c7Image (by rfl)⟩

end PdfCloudExplorer
